import Mathlib

/-!
Verification development for the media cache of this repository.

The embedding models `MediaCacheManager` (src/components/media/MediaCache.ts)
as an explicit state machine: JavaScript `Map`s become insertion-ordered
association lists (a JS `Map` keeps unique keys in insertion order; `set` on an
existing key updates the value in place, new keys are appended), promises
become explicit identifiers, and the asynchronous body of `load` is split into
a synchronous registration step (`Action.load`) and a resolution step
(`Action.fetchOk` / `Action.fetchFail`) for the continuation that runs when the
fetch settles.  `URL.revokeObjectURL` calls are recorded in a `revoked` log.
The retry loop of `MediaContent.loadMedia` (src/components/MediaContent.tsx)
is modelled separately as a pure function over a failure oracle.
-/

namespace MediaCacheModel

/-- Insertion-ordered association-list lookup (JS `Map.get`). -/
def lookupKey {κ α : Type} [DecidableEq κ] (k : κ) : List (κ × α) → Option α
  | [] => none
  | (k₁, v) :: rest => if k₁ = k then some v else lookupKey k rest

/-- JS `Map.set`: update in place if the key is present, else append. -/
def setKey {κ α : Type} [DecidableEq κ] (k : κ) (v : α) : List (κ × α) → List (κ × α)
  | [] => [(k, v)]
  | (k₁, v₁) :: rest => if k₁ = k then (k, v) :: rest else (k₁, v₁) :: setKey k v rest

/-- JS `Map.delete`: remove the entry for the key. -/
def delKey {κ α : Type} [DecidableEq κ] (k : κ) : List (κ × α) → List (κ × α)
  | [] => []
  | (k₁, v₁) :: rest => if k₁ = k then delKey k rest else (k₁, v₁) :: delKey k rest

/-- `CachedMedia` from MediaCache.ts.  The blob is abstracted away; `id` is the
nanoid and `objectUrl` the `URL.createObjectURL` result, both drawn from a
fresh-identifier counter. -/
structure CachedMedia where
  id : Nat
  objectUrl : Nat
  loaded : Bool
  timestamp : Nat
  retries : Nat
  deriving Repr, DecidableEq

/-- The configuration constants of `MediaCacheManager` (`maxSize`, `ttl`).
The source hardcodes `maxSize = 100` and `ttl = 30 * 60 * 1000`; they are
parameters here so that the spec's eviction example (`maxEntries = 2`) is
statable, with `defaultCfg` matching the source. -/
structure Config where
  maxSize : Nat
  ttl : Nat
  deriving Repr, DecidableEq

def defaultCfg : Config := { maxSize := 100, ttl := 30 * 60 * 1000 }

/-- Outcome a loading promise settles with. -/
inductive Outcome where
  | ok (m : CachedMedia)
  | err
  deriving Repr, DecidableEq

/-- State of a `MediaCacheManager` instance.

`cache` and `loadingPromises` are the two `Map` fields.  `pending` tracks
promise bodies that have been started but not settled: `clear()` empties
`loadingPromises` but does not cancel a running fetch, so the two differ.
`cleanupActive` is `cleanupInterval !== null`.  `revoked` logs every
`URL.revokeObjectURL` call in order.  `nextId` allocates fresh identifiers
(promise ids, nanoids, object URLs); `fetchCount` counts `fetch()` calls;
`resolved` logs each promise's settled outcome. -/
structure ManagerState where
  cache : List (String × CachedMedia)
  loadingPromises : List (String × Nat)
  pending : List (Nat × String)
  cleanupActive : Bool
  revoked : List Nat
  nextId : Nat
  fetchCount : Nat
  resolved : List (Nat × Outcome)
  deriving Repr, DecidableEq

/-- The constructor: empty maps, cleanup interval started. -/
def init : ManagerState :=
  { cache := [], loadingPromises := [], pending := [], cleanupActive := true,
    revoked := [], nextId := 0, fetchCount := 0, resolved := [] }

/-- `remove(url)`: revoke the entry's object URL and delete it (lines 82-88). -/
def removeKeyState (url : String) (s : ManagerState) : ManagerState :=
  match lookupKey url s.cache with
  | some item =>
      { s with cache := delKey url s.cache, revoked := s.revoked ++ [item.objectUrl] }
  | none => s

/-- The entry `removeOldest` picks: `Array.from(entries).sort(byTimestamp)[0]`.
`entries()` iterates in insertion order and JS `sort` is stable, so the result
is the first-inserted entry among those with minimal timestamp — exactly what
this fold computes (a later entry replaces the best only when strictly
smaller). -/
def findOldest : List (String × CachedMedia) → Option (String × CachedMedia)
  | [] => none
  | e :: es =>
      some (es.foldl (fun best cur => if cur.2.timestamp < best.2.timestamp then cur else best) e)

/-- `removeOldest()` (lines 90-96). -/
def removeOldestState (s : ManagerState) : ManagerState :=
  match findOldest s.cache with
  | some e => removeKeyState e.1 s
  | none => s

/-- Result `get` hands its caller: the in-flight promise, a cache hit, or
`undefined`. -/
inductive GetResult where
  | inflight (pid : Nat)
  | hit (m : CachedMedia)
  | miss
  deriving Repr, DecidableEq

/-- Observation produced by a step. -/
inductive Obs where
  | silent
  | got (r : GetResult)
  | promise (pid : Nat)
  deriving Repr, DecidableEq

/-- The operations on a constructed `MediaCacheManager`, with explicit time.
`load` is the synchronous part of `load(url)`; `fetchOk fid now` /
`fetchFail fid` run the continuation of promise `fid` when its fetch settles;
`sweep` is one tick of the cleanup interval. -/
inductive Action where
  | get (url : String) (now : Nat)
  | load (url : String)
  | fetchOk (fid : Nat) (now : Nat)
  | fetchFail (fid : Nat)
  | remove (url : String)
  | clear
  | sweep (now : Nat)
  deriving Repr, DecidableEq

/-- One step of the manager, translated clause by clause from MediaCache.ts.

* `get` (lines 24-42): return the loading promise if one exists, else consult
  the cache, treating `now - timestamp > ttl` as expired (remove, miss).
* `load` (lines 44-80): return the existing promise, else allocate a fresh
  promise id, invoke `fetch` (count it), register the promise.
* `fetchOk` (lines 53-75): build the media record, evict the oldest entry if
  `cache.size >= maxSize`, `cache.set(url, media)`, and in the `finally`
  delete the loading promise.  Runs whenever the body is pending — `clear()`
  does not cancel it.
* `fetchFail`: only the `finally` runs; nothing is stored.
* `clear` (lines 113-124): remove every cached entry (revoking each object
  URL — `Map` keys are unique, so the removal loop revokes each entry once
  and empties the map), cancel the cleanup interval, clear `loadingPromises`.
* `sweep` (lines 103-110): when the interval is active, remove every expired
  entry; a cancelled interval never ticks, modelled as a no-op. -/
def step (cfg : Config) (s : ManagerState) : Action → ManagerState × Obs
  | .get url now =>
      match lookupKey url s.loadingPromises with
      | some pid => (s, .got (.inflight pid))
      | none =>
          match lookupKey url s.cache with
          | some m =>
              if cfg.ttl < now - m.timestamp then (removeKeyState url s, .got .miss)
              else (s, .got (.hit m))
          | none => (s, .got .miss)
  | .load url =>
      match lookupKey url s.loadingPromises with
      | some pid => (s, .promise pid)
      | none =>
          let pid := s.nextId
          ({ s with loadingPromises := setKey url pid s.loadingPromises,
                    pending := s.pending ++ [(pid, url)],
                    nextId := s.nextId + 1,
                    fetchCount := s.fetchCount + 1 }, .promise pid)
  | .fetchOk fid now =>
      match lookupKey fid s.pending with
      | none => (s, .silent)
      | some url =>
          let media : CachedMedia :=
            { id := s.nextId, objectUrl := s.nextId + 1, loaded := true,
              timestamp := now, retries := 0 }
          let s₁ := if cfg.maxSize ≤ s.cache.length then removeOldestState s else s
          ({ s₁ with cache := setKey url media s₁.cache,
                     loadingPromises := delKey url s₁.loadingPromises,
                     pending := delKey fid s₁.pending,
                     resolved := s₁.resolved ++ [(fid, .ok media)],
                     nextId := s₁.nextId + 2 }, .silent)
  | .fetchFail fid =>
      match lookupKey fid s.pending with
      | none => (s, .silent)
      | some url =>
          ({ s with loadingPromises := delKey url s.loadingPromises,
                    pending := delKey fid s.pending,
                    resolved := s.resolved ++ [(fid, .err)] }, .silent)
  | .remove url => (removeKeyState url s, .silent)
  | .clear =>
      ({ s with cache := [],
                revoked := s.revoked ++ s.cache.map (fun e => e.2.objectUrl),
                loadingPromises := [],
                cleanupActive := false }, .silent)
  | .sweep now =>
      if s.cleanupActive then
        ({ s with cache := s.cache.filter (fun e => ¬ cfg.ttl < now - e.2.timestamp),
                  revoked := s.revoked ++
                    (s.cache.filter (fun e => cfg.ttl < now - e.2.timestamp)).map
                      (fun e => e.2.objectUrl) }, .silent)
      else (s, .silent)

/-- Run a sequence of actions from a state. -/
def run (cfg : Config) (s : ManagerState) (acts : List Action) : ManagerState :=
  acts.foldl (fun s a => (step cfg s a).1) s

/-- The retry loop of `MediaContent.loadMedia` (MediaContent.tsx lines 91-106),
on the path where the cache misses and the fetch fails: `fails n` says whether
attempt `n` (1-indexed) fails.  `retryCount` starts at 0; after a failure with
`retryCount < 2` it is incremented and a retry is scheduled after
`1000 * Math.pow(2, retryCount)` ms (the incremented value).  `fuel` is the
number of retries still allowed, `2 - retryCount`.  Returns (number of fetch
attempts made, the backoff delays in order, whether the load succeeded). -/
def loadMediaAux (fails : Nat → Bool) (retryCount : Nat) : Nat → Nat × List Nat × Bool
  | 0 => if fails (retryCount + 1) then (1, [], false) else (1, [], true)
  | fuel + 1 =>
      if fails (retryCount + 1) then
        let res := loadMediaAux fails (retryCount + 1) fuel
        (res.1 + 1, 1000 * 2 ^ (retryCount + 1) :: res.2.1, res.2.2)
      else (1, [], true)

/-- One full `loadMedia` lifecycle for a url: `retryCount.current = 0`, at most
2 retries (`retryCount.current < 2`). -/
def loadMediaRun (fails : Nat → Bool) : Nat × List Nat × Bool :=
  loadMediaAux fails 0 2

/-- The spec's backoff formula: `min(baseMs * 2^(attempt-1), capMs)` with
`baseMs = 1000`, `capMs = 8000` — stated from the spec for comparison with the
code's actual delays. -/
def specDelay (attempt : Nat) : Nat := min (1000 * 2 ^ (attempt - 1)) 8000

/-- The media record a successful fetch builds from state `s` at time `now`. -/
def freshMedia (s : ManagerState) (now : Nat) : CachedMedia :=
  { id := s.nextId, objectUrl := s.nextId + 1, loaded := true,
    timestamp := now, retries := 0 }

/-- The spec's eviction example configuration: `maxEntries = 2`. -/
def cfg2 : Config := { maxSize := 2, ttl := 30 * 60 * 1000 }

/-- The spec's eviction example: A, B, C fetched in that `createdAt` order
(timestamps 1, 2, 3).  Promise ids 0, 3, 6 are the ones `load` allocates. -/
def evictTrace : List Action :=
  [.load "A", .fetchOk 0 1, .load "B", .fetchOk 3 2, .load "C", .fetchOk 6 3]

/-- A key fetched twice: the second `load` starts after the first resolved,
so the second `fetchOk` stores over the existing entry. -/
def replaceTrace : List Action := [.load "A", .fetchOk 0 10, .load "A", .fetchOk 3 20]

/-- A fetch is started, `clear()` runs while it is in flight, then the fetch
completes. -/
def clearRaceTrace : List Action := [.load "A", .clear, .fetchOk 0 5]

end MediaCacheModel

namespace MediaCacheModel

theorem lookupKey_setKey_self {κ α : Type} [DecidableEq κ] (k : κ) (v : α) :
    ∀ l : List (κ × α), lookupKey k (setKey k v l) = some v := by
  intro l
  induction l with
  | nil => simp [setKey, lookupKey]
  | cons e rest ih =>
      by_cases h : e.1 = k
      · simp [setKey, lookupKey, h]
      · simp [setKey, lookupKey, h, ih]

theorem lookupKey_delKey_self {κ α : Type} [DecidableEq κ] (k : κ) :
    ∀ l : List (κ × α), lookupKey k (delKey k l) = none := by
  intro l
  induction l with
  | nil => simp [delKey, lookupKey]
  | cons e rest ih =>
      by_cases h : e.1 = k
      · simp [delKey, h, ih]
      · simp [delKey, lookupKey, h, ih]

theorem length_setKey_le {κ α : Type} [DecidableEq κ] (k : κ) (v : α) :
    ∀ l : List (κ × α), (setKey k v l).length ≤ l.length + 1 := by
  intro l
  induction l with
  | nil => simp [setKey]
  | cons e rest ih =>
      by_cases h : e.1 = k
      · simp [setKey, h]
      · simp only [setKey, if_neg h, List.length_cons]
        omega

theorem length_delKey_le {κ α : Type} [DecidableEq κ] (k : κ) :
    ∀ l : List (κ × α), (delKey k l).length ≤ l.length := by
  intro l
  induction l with
  | nil => simp [delKey]
  | cons e rest ih =>
      by_cases h : e.1 = k
      · simp only [delKey, if_pos h, List.length_cons]
        omega
      · simp only [delKey, if_neg h, List.length_cons]
        omega

theorem lookupKey_mem {κ α : Type} [DecidableEq κ] (k : κ) (v : α) :
    ∀ l : List (κ × α), lookupKey k l = some v → (k, v) ∈ l := by
  intro l
  induction l with
  | nil => simp [lookupKey]
  | cons e rest ih =>
      obtain ⟨e₁, e₂⟩ := e
      by_cases h : e₁ = k
      · subst h
        intro hv
        simp [lookupKey] at hv
        subst hv
        exact List.mem_cons_self _ _
      · simp only [lookupKey, if_neg h]
        intro hv
        exact List.mem_cons_of_mem _ (ih hv)

theorem lookupKey_isSome_of_mem {κ α : Type} [DecidableEq κ] (k : κ) (v : α) :
    ∀ l : List (κ × α), (k, v) ∈ l → (lookupKey k l).isSome := by
  intro l
  induction l with
  | nil => simp
  | cons e rest ih =>
      intro hmem
      by_cases h : e.1 = k
      · simp [lookupKey, h]
      · rcases List.mem_cons.mp hmem with heq | hrest
        · exact absurd (congrArg Prod.fst heq.symm) h
        · simp only [lookupKey, if_neg h]
          exact ih hrest

theorem length_delKey_lt {κ α : Type} [DecidableEq κ] (k : κ) :
    ∀ l : List (κ × α), (lookupKey k l).isSome → (delKey k l).length < l.length := by
  intro l
  induction l with
  | nil => simp [lookupKey]
  | cons e rest ih =>
      intro hs
      by_cases h : e.1 = k
      · simp only [delKey, if_pos h, List.length_cons]
        have := length_delKey_le k rest
        omega
      · simp only [lookupKey, if_neg h] at hs
        simp only [delKey, if_neg h, List.length_cons]
        have := ih hs
        omega

theorem mem_delKey {κ α : Type} [DecidableEq κ] (k : κ) (e : κ × α) :
    ∀ l : List (κ × α), e ∈ delKey k l → e ∈ l ∧ e.1 ≠ k := by
  intro l
  induction l with
  | nil => simp [delKey]
  | cons e₁ rest ih =>
      intro hmem
      by_cases h : e₁.1 = k
      · simp only [delKey, if_pos h] at hmem
        exact ⟨List.mem_cons_of_mem _ (ih hmem).1, (ih hmem).2⟩
      · simp only [delKey, if_neg h] at hmem
        rcases List.mem_cons.mp hmem with heq | hrest
        · subst heq
          exact ⟨List.mem_cons_self _ _, h⟩
        · exact ⟨List.mem_cons_of_mem _ (ih hrest).1, (ih hrest).2⟩

theorem foldl_pick_mem (pick : (String × CachedMedia) → (String × CachedMedia) → (String × CachedMedia))
    (hpick : ∀ a b, pick a b = a ∨ pick a b = b) :
    ∀ (es : List (String × CachedMedia)) (e : String × CachedMedia),
      es.foldl pick e ∈ e :: es := by
  intro es
  induction es with
  | nil => simp
  | cons c es' ih =>
      intro e
      rw [List.foldl_cons]
      rcases List.mem_cons.mp (ih (pick e c)) with heq | hmem
      · rw [heq]
        rcases hpick e c with hc | hc <;> rw [hc] <;> simp
      · exact List.mem_cons_of_mem _ (List.mem_cons_of_mem _ hmem)

theorem findOldest_mem (l : List (String × CachedMedia)) (e : String × CachedMedia) :
    findOldest l = some e → e ∈ l := by
  cases l with
  | nil => simp [findOldest]
  | cons e₁ es =>
      intro h
      simp only [findOldest, Option.some_inj] at h
      have hmem := foldl_pick_mem
        (fun best cur : String × CachedMedia =>
          if cur.2.timestamp < best.2.timestamp then cur else best)
        (by intro a b; by_cases hb : b.2.timestamp < a.2.timestamp <;> simp [hb]) es e₁
      rw [h] at hmem
      exact hmem

theorem foldl_pick_min :
    ∀ (es : List (String × CachedMedia)) (e : String × CachedMedia),
      (es.foldl (fun best cur => if cur.2.timestamp < best.2.timestamp then cur else best) e).2.timestamp
        ≤ e.2.timestamp ∧
      ∀ e' ∈ es,
        (es.foldl (fun best cur => if cur.2.timestamp < best.2.timestamp then cur else best) e).2.timestamp
          ≤ e'.2.timestamp := by
  intro es
  induction es with
  | nil => simp
  | cons c es' ih =>
      intro e
      have h := ih (if c.2.timestamp < e.2.timestamp then c else e)
      constructor
      · refine le_trans h.1 ?_
        by_cases hc : c.2.timestamp < e.2.timestamp <;> simp [hc] <;> omega
      · intro e' he'
        rcases List.mem_cons.mp he' with heq | hrest
        · subst heq
          refine le_trans h.1 ?_
          by_cases hc : e'.2.timestamp < e.2.timestamp <;> simp [hc] <;> omega
        · exact h.2 e' hrest

theorem findOldest_min (l : List (String × CachedMedia)) (e : String × CachedMedia)
    (h : findOldest l = some e) : ∀ e' ∈ l, e.2.timestamp ≤ e'.2.timestamp := by
  cases l with
  | nil => simp [findOldest] at h
  | cons e₁ es =>
      simp only [findOldest, Option.some_inj] at h
      intro e' he'
      have hmin := foldl_pick_min es e₁
      rw [h] at hmin
      rcases List.mem_cons.mp he' with heq | hrest
      · subst heq
        exact hmin.1
      · exact hmin.2 e' hrest

end MediaCacheModel

namespace MediaCacheModel

theorem removeKeyState_cache_le (url : String) (s : ManagerState) :
    (removeKeyState url s).cache.length ≤ s.cache.length := by
  unfold removeKeyState
  cases hl : lookupKey url s.cache with
  | none => simp
  | some item => simpa using length_delKey_le url s.cache

theorem removeKeyState_cache_lt (url : String) (s : ManagerState)
    (h : (lookupKey url s.cache).isSome) :
    (removeKeyState url s).cache.length < s.cache.length := by
  unfold removeKeyState
  cases hl : lookupKey url s.cache with
  | none => rw [hl] at h; simp at h
  | some item => simpa using length_delKey_lt url s.cache h

theorem findOldest_isSome (l : List (String × CachedMedia)) (h : l ≠ []) :
    (findOldest l).isSome := by
  cases l with
  | nil => exact absurd rfl h
  | cons e es => simp [findOldest]

theorem removeOldestState_cache_lt (s : ManagerState) (h : s.cache ≠ []) :
    (removeOldestState s).cache.length < s.cache.length := by
  unfold removeOldestState
  cases hf : findOldest s.cache with
  | none =>
      have := findOldest_isSome s.cache h
      rw [hf] at this
      simp at this
  | some e =>
      have hmem := findOldest_mem s.cache e hf
      obtain ⟨k, m⟩ := e
      exact removeKeyState_cache_lt k s (lookupKey_isSome_of_mem k m s.cache hmem)

/-- One step never pushes the store past `maxSize` (for any positive bound):
`load` leaves the cache alone, a successful fetch first evicts when
`cache.size >= maxSize`, and every other operation only removes entries. -/
theorem cache_length_step_le (cfg : Config) (hpos : 1 ≤ cfg.maxSize)
    (s : ManagerState) (a : Action) (hs : s.cache.length ≤ cfg.maxSize) :
    ((step cfg s a).1).cache.length ≤ cfg.maxSize := by
  cases a with
  | get url now =>
      cases hl : lookupKey url s.loadingPromises with
      | some pid => simpa [step, hl] using hs
      | none =>
          cases hc : lookupKey url s.cache with
          | none => simpa [step, hl, hc] using hs
          | some m =>
              by_cases ht : cfg.ttl < now - m.timestamp
              · simp only [step, hl, hc, if_pos ht]
                exact le_trans (removeKeyState_cache_le url s) hs
              · simpa [step, hl, hc, ht] using hs
  | load url =>
      cases hl : lookupKey url s.loadingPromises with
      | some pid => simpa [step, hl] using hs
      | none => simpa [step, hl] using hs
  | fetchOk fid now =>
      cases hp : lookupKey fid s.pending with
      | none => simpa [step, hp] using hs
      | some url =>
          simp only [step, hp]
          by_cases hcap : cfg.maxSize ≤ s.cache.length
          · have hne : s.cache ≠ [] := by
              intro h0
              rw [h0] at hcap
              simp at hcap
              omega
            have h₁ := removeOldestState_cache_lt s hne
            have h₂ := length_setKey_le url
              { id := s.nextId, objectUrl := s.nextId + 1, loaded := true,
                timestamp := now, retries := 0 } (removeOldestState s).cache
            simp only [if_pos hcap]
            omega
          · have h₂ := length_setKey_le url
              { id := s.nextId, objectUrl := s.nextId + 1, loaded := true,
                timestamp := now, retries := 0 } s.cache
            simp only [if_neg hcap]
            omega
  | fetchFail fid =>
      cases hp : lookupKey fid s.pending with
      | none => simpa [step, hp] using hs
      | some url => simpa [step, hp] using hs
  | remove url =>
      simp only [step]
      exact le_trans (removeKeyState_cache_le url s) hs
  | clear => simp [step]
  | sweep now =>
      by_cases hact : s.cleanupActive
      · simp only [step, if_pos hact]
        exact le_trans (List.length_filter_le _ _) hs
      · simpa [step, hact] using hs

theorem cache_length_run_le (cfg : Config) (hpos : 1 ≤ cfg.maxSize)
    (s : ManagerState) (acts : List Action) (hs : s.cache.length ≤ cfg.maxSize) :
    (run cfg s acts).cache.length ≤ cfg.maxSize := by
  induction acts generalizing s with
  | nil => exact hs
  | cons a rest ih =>
      exact ih (step cfg s a).1 (cache_length_step_le cfg hpos s a hs)

end MediaCacheModel

namespace MediaCacheModel

theorem delKey_sublist {κ α : Type} [DecidableEq κ] (k : κ) :
    ∀ l : List (κ × α), List.Sublist (delKey k l) l := by
  intro l
  induction l with
  | nil => simp [delKey]
  | cons e rest ih =>
      by_cases h : e.1 = k
      · simp only [delKey, if_pos h]
        exact ih.cons e
      · simp only [delKey, if_neg h]
        exact ih.cons₂ e

theorem removeKeyState_fields (url : String) (s : ManagerState) :
    (removeKeyState url s).loadingPromises = s.loadingPromises ∧
    (removeKeyState url s).pending = s.pending ∧
    (removeKeyState url s).cleanupActive = s.cleanupActive ∧
    (removeKeyState url s).nextId = s.nextId ∧
    (removeKeyState url s).fetchCount = s.fetchCount ∧
    (removeKeyState url s).resolved = s.resolved := by
  unfold removeKeyState
  cases hl : lookupKey url s.cache <;> simp

theorem removeOldestState_fields (s : ManagerState) :
    (removeOldestState s).loadingPromises = s.loadingPromises ∧
    (removeOldestState s).pending = s.pending ∧
    (removeOldestState s).cleanupActive = s.cleanupActive ∧
    (removeOldestState s).nextId = s.nextId ∧
    (removeOldestState s).fetchCount = s.fetchCount ∧
    (removeOldestState s).resolved = s.resolved := by
  unfold removeOldestState
  cases hf : findOldest s.cache with
  | none => simp
  | some e => exact removeKeyState_fields e.1 s

theorem fetchOk_state (cfg : Config) (s : ManagerState) (fid now : Nat) (url : String)
    (hp : lookupKey fid s.pending = some url) :
    (step cfg s (.fetchOk fid now)).1.pending = delKey fid s.pending ∧
    (step cfg s (.fetchOk fid now)).1.resolved = s.resolved ++ [(fid, .ok (freshMedia s now))] ∧
    (step cfg s (.fetchOk fid now)).1.nextId = s.nextId + 2 ∧
    (step cfg s (.fetchOk fid now)).1.cleanupActive = s.cleanupActive ∧
    (step cfg s (.fetchOk fid now)).1.cache =
      setKey url (freshMedia s now)
        (if cfg.maxSize ≤ s.cache.length then removeOldestState s else s).cache ∧
    (step cfg s (.fetchOk fid now)).1.loadingPromises =
      delKey url (if cfg.maxSize ≤ s.cache.length then removeOldestState s else s).loadingPromises := by
  have hro := removeOldestState_fields s
  by_cases hcap : cfg.maxSize ≤ s.cache.length <;>
    simp [step, hp, hcap, freshMedia, hro.1, hro.2.1, hro.2.2.1, hro.2.2.2.1, hro.2.2.2.2.2]

theorem fetchFail_state (cfg : Config) (s : ManagerState) (fid : Nat) (url : String)
    (hp : lookupKey fid s.pending = some url) :
    (step cfg s (.fetchFail fid)).1 =
      { s with loadingPromises := delKey url s.loadingPromises,
               pending := delKey fid s.pending,
               resolved := s.resolved ++ [(fid, .err)] } := by
  simp [step, hp]

/-- Bookkeeping invariant of reachable states: pending promise ids are
distinct, each promise resolves at most once, a pending promise is unresolved,
and every allocated id is below the fresh-id counter. -/
structure Inv (s : ManagerState) : Prop where
  pnd : (s.pending.map Prod.fst).Nodup
  rsd : (s.resolved.map Prod.fst).Nodup
  disj : ∀ fid url, (fid, url) ∈ s.pending → ∀ o, (fid, o) ∉ s.resolved
  pfresh : ∀ fid url, (fid, url) ∈ s.pending → fid < s.nextId
  rfresh : ∀ fid o, (fid, o) ∈ s.resolved → fid < s.nextId

theorem inv_init : Inv init := by
  constructor <;> simp [init]

theorem not_mem_map_fst {α : Type} (fid : Nat) (l : List (Nat × α))
    (h : ∀ o, (fid, o) ∉ l) : fid ∉ l.map Prod.fst := by
  intro hmem
  obtain ⟨⟨f, o⟩, hin, hf⟩ := List.mem_map.mp hmem
  simp only at hf
  subst hf
  exact h o hin

theorem inv_step (cfg : Config) (s : ManagerState) (a : Action) (hinv : Inv s) :
    Inv (step cfg s a).1 := by
  obtain ⟨pnd, rsd, disj, pfresh, rfresh⟩ := hinv
  cases a with
  | get url now =>
      cases hl : lookupKey url s.loadingPromises with
      | some pid => simpa [step, hl] using ⟨pnd, rsd, disj, pfresh, rfresh⟩
      | none =>
          cases hc : lookupKey url s.cache with
          | none => simpa [step, hl, hc] using ⟨pnd, rsd, disj, pfresh, rfresh⟩
          | some m =>
              by_cases ht : cfg.ttl < now - m.timestamp
              · have hrk := removeKeyState_fields url s
                simp only [step, hl, hc, if_pos ht]
                exact ⟨by rw [hrk.2.1]; exact pnd,
                       by rw [hrk.2.2.2.2.2]; exact rsd,
                       by rw [hrk.2.1, hrk.2.2.2.2.2]; exact disj,
                       by rw [hrk.2.1, hrk.2.2.2.1]; exact pfresh,
                       by rw [hrk.2.2.2.2.2, hrk.2.2.2.1]; exact rfresh⟩
              · simpa [step, hl, hc, ht] using ⟨pnd, rsd, disj, pfresh, rfresh⟩
  | load url =>
      cases hl : lookupKey url s.loadingPromises with
      | some pid => simpa [step, hl] using ⟨pnd, rsd, disj, pfresh, rfresh⟩
      | none =>
          simp only [step, hl]
          refine ⟨?_, rsd, ?_, ?_, ?_⟩
          · simp only [List.map_append, List.map_cons, List.map_nil]
            rw [List.nodup_append]
            refine ⟨pnd, List.nodup_singleton _, ?_⟩
            intro x hx hx1
            simp only [List.mem_singleton] at hx1
            subst hx1
            obtain ⟨⟨f, u⟩, hin, hf⟩ := List.mem_map.mp hx
            simp only at hf
            subst hf
            exact absurd (pfresh _ u hin) (lt_irrefl _)
          · intro fid url₁ hmem o
            rcases List.mem_append.mp hmem with hold | hnew
            · exact disj fid url₁ hold o
            · simp only [List.mem_singleton, Prod.mk.injEq] at hnew
              intro hres
              exact absurd (rfresh fid o hres) (by simp [hnew.1])
          · intro fid url₁ hmem
            show fid < s.nextId + 1
            rcases List.mem_append.mp hmem with hold | hnew
            · exact lt_trans (pfresh fid url₁ hold) (Nat.lt_succ_self _)
            · simp only [List.mem_singleton, Prod.mk.injEq] at hnew
              omega
          · intro fid o hres
            show fid < s.nextId + 1
            exact lt_trans (rfresh fid o hres) (Nat.lt_succ_self _)
  | fetchOk fid now =>
      cases hp : lookupKey fid s.pending with
      | none => simpa [step, hp] using ⟨pnd, rsd, disj, pfresh, rfresh⟩
      | some url =>
          obtain ⟨hP, hR, hN, _, _, _⟩ := fetchOk_state cfg s fid now url hp
          have hpmem := lookupKey_mem fid url s.pending hp
          constructor
          · rw [hP]
            exact pnd.sublist ((delKey_sublist fid s.pending).map Prod.fst)
          · rw [hR]
            simp only [List.map_append, List.map_cons, List.map_nil]
            rw [List.nodup_append]
            refine ⟨rsd, List.nodup_singleton _, ?_⟩
            intro x hx hx1
            simp only [List.mem_singleton] at hx1
            subst hx1
            exact not_mem_map_fst x s.resolved (disj x url hpmem) hx
          · rw [hP, hR]
            intro g u hg o
            obtain ⟨hgin, hgne⟩ := mem_delKey fid (g, u) s.pending hg
            intro hres
            rcases List.mem_append.mp hres with hold | hnew
            · exact disj g u hgin o hold
            · simp only [List.mem_singleton, Prod.mk.injEq] at hnew
              exact hgne hnew.1
          · rw [hP, hN]
            intro g u hg
            obtain ⟨hgin, _⟩ := mem_delKey fid (g, u) s.pending hg
            exact lt_trans (pfresh g u hgin) (by omega)
          · rw [hR, hN]
            intro g o hres
            rcases List.mem_append.mp hres with hold | hnew
            · exact lt_trans (rfresh g o hold) (by omega)
            · simp only [List.mem_singleton, Prod.mk.injEq] at hnew
              have := pfresh fid url hpmem
              omega
  | fetchFail fid =>
      cases hp : lookupKey fid s.pending with
      | none => simpa [step, hp] using ⟨pnd, rsd, disj, pfresh, rfresh⟩
      | some url =>
          rw [fetchFail_state cfg s fid url hp]
          have hpmem := lookupKey_mem fid url s.pending hp
          constructor
          · exact pnd.sublist ((delKey_sublist fid s.pending).map Prod.fst)
          · simp only [List.map_append, List.map_cons, List.map_nil]
            rw [List.nodup_append]
            refine ⟨rsd, List.nodup_singleton _, ?_⟩
            intro x hx hx1
            simp only [List.mem_singleton] at hx1
            subst hx1
            exact not_mem_map_fst x s.resolved (disj x url hpmem) hx
          · intro g u hg o
            obtain ⟨hgin, hgne⟩ := mem_delKey fid (g, u) s.pending hg
            intro hres
            rcases List.mem_append.mp hres with hold | hnew
            · exact disj g u hgin o hold
            · simp only [List.mem_singleton, Prod.mk.injEq] at hnew
              exact hgne hnew.1
          · intro g u hg
            obtain ⟨hgin, _⟩ := mem_delKey fid (g, u) s.pending hg
            exact pfresh g u hgin
          · intro g o hres
            show g < s.nextId
            rcases List.mem_append.mp hres with hold | hnew
            · exact rfresh g o hold
            · simp only [List.mem_singleton, Prod.mk.injEq] at hnew
              have := pfresh fid url hpmem
              omega
  | remove url =>
      have hrk := removeKeyState_fields url s
      simp only [step]
      exact ⟨by rw [hrk.2.1]; exact pnd,
             by rw [hrk.2.2.2.2.2]; exact rsd,
             by rw [hrk.2.1, hrk.2.2.2.2.2]; exact disj,
             by rw [hrk.2.1, hrk.2.2.2.1]; exact pfresh,
             by rw [hrk.2.2.2.2.2, hrk.2.2.2.1]; exact rfresh⟩
  | clear => exact ⟨pnd, rsd, disj, pfresh, rfresh⟩
  | sweep now =>
      by_cases hact : s.cleanupActive
      · simpa [step, hact] using ⟨pnd, rsd, disj, pfresh, rfresh⟩
      · simpa [step, hact] using ⟨pnd, rsd, disj, pfresh, rfresh⟩

theorem inv_run (cfg : Config) (s : ManagerState) (acts : List Action) (hinv : Inv s) :
    Inv (run cfg s acts) := by
  induction acts generalizing s with
  | nil => exact hinv
  | cons a rest ih => exact ih (step cfg s a).1 (inv_step cfg s a hinv)

end MediaCacheModel

namespace MediaCacheModel

/-- C2: after any sequence of cache operations from a fresh manager the store
size never exceeds `maxEntries` (any positive bound, source default 100); an
insertion at capacity evicts the entry with the smallest timestamp (shown in
general by `findOldest` minimality, and by the stable fold keeping the
first-inserted entry on equal timestamps — witnessed by the two-entry tie);
with `maxEntries = 2`, inserting A, B, C in that `createdAt` order leaves
exactly the keys B, C and revokes A's object URL (2). -/
theorem c2_capacity_bound_and_eviction (cfg : Config) (acts : List Action)
    (hpos : 1 ≤ cfg.maxSize) :
    (run cfg init acts).cache.length ≤ cfg.maxSize ∧
    (∀ l e, findOldest l = some e → ∀ e₁ ∈ l, e.2.timestamp ≤ e₁.2.timestamp) ∧
    findOldest [("X", ⟨0, 1, true, 5, 0⟩), ("Y", ⟨2, 3, true, 5, 0⟩)]
      = some ("X", ⟨0, 1, true, 5, 0⟩) ∧
    (run cfg2 init evictTrace).cache.map Prod.fst = ["B", "C"] ∧
    (run cfg2 init evictTrace).revoked = [2] := by
  exact ⟨cache_length_run_le cfg hpos init acts (by simp [init]),
         findOldest_min, by decide, by decide, by decide⟩

theorem c2_capacity_bound_and_eviction_witness :
    1 ≤ defaultCfg.maxSize ∧
    (run defaultCfg init [.load "A", .fetchOk 0 1]).cache.length ≤ defaultCfg.maxSize :=
  ⟨by decide,
   (c2_capacity_bound_and_eviction defaultCfg [.load "A", .fetchOk 0 1] (by decide)).1⟩

/-- C3: a cached entry whose age strictly exceeds `ttl` at lookup time is
never returned as a hit by `get`; when no fetch is in flight for the key,
`get` removes the expired entry (revoking its object URL), reports a miss,
and the next `load` for the key invokes a fresh fetch. -/
theorem c3_ttl_expiry (cfg : Config) (s : ManagerState) (url : String) (now : Nat)
    (m : CachedMedia) (hm : lookupKey url s.cache = some m)
    (hexp : cfg.ttl < now - m.timestamp) :
    (∀ m₁, (step cfg s (.get url now)).2 ≠ .got (.hit m₁)) ∧
    (lookupKey url s.loadingPromises = none →
      (step cfg s (.get url now)).2 = .got .miss ∧
      lookupKey url (step cfg s (.get url now)).1.cache = none ∧
      m.objectUrl ∈ (step cfg s (.get url now)).1.revoked ∧
      (step cfg (step cfg s (.get url now)).1 (.load url)).1.fetchCount
        = s.fetchCount + 1) := by
  cases hl : lookupKey url s.loadingPromises with
  | some pid =>
      constructor
      · intro m₁
        simp [step, hl]
      · intro hnone
        simp at hnone
  | none =>
      have hrm : removeKeyState url s
          = { s with cache := delKey url s.cache, revoked := s.revoked ++ [m.objectUrl] } := by
        unfold removeKeyState
        rw [hm]
      constructor
      · intro m₁
        simp [step, hl, hm, if_pos hexp]
      · intro _
        refine ⟨by simp [step, hl, hm, if_pos hexp], ?_, ?_, ?_⟩
        · simp [step, hl, hm, if_pos hexp, hrm, lookupKey_delKey_self]
        · simp [step, hl, hm, if_pos hexp, hrm]
        · simp [step, hl, hm, if_pos hexp, hrm]

theorem c3_ttl_expiry_witness :
    lookupKey "A" (run defaultCfg init [.load "A", .fetchOk 0 0]).cache
        = some { id := 1, objectUrl := 2, loaded := true, timestamp := 0, retries := 0 } ∧
    defaultCfg.ttl < 1800001 - (0 : Nat) ∧
    (step defaultCfg (run defaultCfg init [.load "A", .fetchOk 0 0]) (.get "A" 1800001)).2
      = .got .miss :=
  ⟨by decide, by decide,
   ((c3_ttl_expiry defaultCfg (run defaultCfg init [.load "A", .fetchOk 0 0]) "A" 1800001
      { id := 1, objectUrl := 2, loaded := true, timestamp := 0, retries := 0 }
      (by decide) (by decide)).2 (by decide)).1⟩

/-- C4: on the `MediaContent.loadMedia` retry path, when the first 3 fetch
attempts all fail the load makes exactly 3 attempts (so no 4th attempt ever
occurs, whatever a 4th attempt would have returned) and resolves to a
terminal failure, after backoff delays of 2000 and 4000 ms. -/
theorem c4_bounded_retries (fails : Nat → Bool)
    (h1 : fails 1 = true) (h2 : fails 2 = true) (h3 : fails 3 = true) :
    loadMediaRun fails = (3, [2000, 4000], false) := by
  simp [loadMediaRun, loadMediaAux, h1, h2, h3]

theorem c4_bounded_retries_witness :
    (fun n => decide (n ≤ 3)) 4 = false ∧
    loadMediaRun (fun n => decide (n ≤ 3)) = (3, [2000, 4000], false) :=
  ⟨by decide,
   c4_bounded_retries (fun n => decide (n ≤ 3)) (by decide) (by decide) (by decide)⟩

/-- C5 counterexample: the code computes the delay before retry `n` as
`1000 * 2^n` (it increments `retryCount` before `Math.pow`), so when every
attempt fails the scheduled delays are 2000 then 4000 ms, while the claimed
formula `min(1000 * 2^(n-1), 8000)` gives 1000 then 2000 ms; in particular
the first retry waits 2000 ms, not 1000 ms. -/
theorem c5_counterexample :
    (loadMediaRun (fun _ => true)).2.1 = [2000, 4000] ∧
    [specDelay 1, specDelay 2] = [1000, 2000] ∧
    (loadMediaRun (fun _ => true)).2.1 ≠ [specDelay 1, specDelay 2] := by
  exact ⟨by decide, by decide, by decide⟩

/-- C5 amended: the delay before retry attempt `n` equals `1000 * 2^n` ms
(base 1000 doubled from `2^1`, with no cap applied); since at most 2 retries
occur the delays are 2000 then 4000 ms, so the first retry waits 2000 ms and
no retry ever waits more than 8000 ms. -/
theorem c5_amended (fails : Nat → Bool) :
    ((loadMediaRun fails).2.1 = [] ∨ (loadMediaRun fails).2.1 = [1000 * 2 ^ 1] ∨
      (loadMediaRun fails).2.1 = [1000 * 2 ^ 1, 1000 * 2 ^ 2]) ∧
    ∀ d ∈ (loadMediaRun fails).2.1, d ≤ 8000 := by
  cases h1 : fails 1 with
  | false => simp [loadMediaRun, loadMediaAux, h1]
  | true =>
      cases h2 : fails 2 with
      | false => simp [loadMediaRun, loadMediaAux, h1, h2]
      | true =>
          cases h3 : fails 3 with
          | false => simp [loadMediaRun, loadMediaAux, h1, h2, h3]
          | true => simp [loadMediaRun, loadMediaAux, h1, h2, h3]

theorem c5_amended_witness :
    2000 ∈ (loadMediaRun (fun _ => true)).2.1 ∧ 2000 ≤ 8000 :=
  ⟨by decide, (c5_amended (fun _ => true)).2 2000 (by decide)⟩

end MediaCacheModel

namespace MediaCacheModel

theorem lookupKey_append_left {κ α : Type} [DecidableEq κ] (k : κ) (v : α) :
    ∀ l l' : List (κ × α), lookupKey k l = some v → lookupKey k (l ++ l') = some v := by
  intro l l'
  induction l with
  | nil => simp [lookupKey]
  | cons e rest ih =>
      by_cases h : e.1 = k
      · obtain ⟨e₁, e₂⟩ := e
        simp only at h
        subst h
        intro hv
        simp only [lookupKey] at hv
        simp only [List.cons_append, lookupKey]
        simpa using hv
      · obtain ⟨e₁, e₂⟩ := e
        simp only at h
        intro hv
        simp only [lookupKey, if_neg h] at hv
        simp only [List.cons_append, lookupKey, if_neg h]
        exact ih hv

theorem resolved_step_mono (cfg : Config) (s : ManagerState) (a : Action)
    (pid : Nat) (o : Outcome) (h : lookupKey pid s.resolved = some o) :
    lookupKey pid (step cfg s a).1.resolved = some o := by
  cases a with
  | get url now =>
      cases hl : lookupKey url s.loadingPromises with
      | some pid₁ => simpa [step, hl] using h
      | none =>
          cases hc : lookupKey url s.cache with
          | none => simpa [step, hl, hc] using h
          | some m =>
              by_cases ht : cfg.ttl < now - m.timestamp
              · simp only [step, hl, hc, if_pos ht]
                rw [(removeKeyState_fields url s).2.2.2.2.2]
                exact h
              · simpa [step, hl, hc, ht] using h
  | load url =>
      cases hl : lookupKey url s.loadingPromises with
      | some pid₁ => simpa [step, hl] using h
      | none => simpa [step, hl] using h
  | fetchOk fid now =>
      cases hp : lookupKey fid s.pending with
      | none => simpa [step, hp] using h
      | some url =>
          rw [(fetchOk_state cfg s fid now url hp).2.1]
          exact lookupKey_append_left pid o s.resolved _ h
  | fetchFail fid =>
      cases hp : lookupKey fid s.pending with
      | none => simpa [step, hp] using h
      | some url =>
          rw [fetchFail_state cfg s fid url hp]
          exact lookupKey_append_left pid o s.resolved _ h
  | remove url =>
      simp only [step]
      rw [(removeKeyState_fields url s).2.2.2.2.2]
      exact h
  | clear => exact h
  | sweep now =>
      by_cases hact : s.cleanupActive <;> simpa [step, hact] using h

theorem resolved_run_mono (cfg : Config) (s : ManagerState) (acts : List Action)
    (pid : Nat) (o : Outcome) (h : lookupKey pid s.resolved = some o) :
    lookupKey pid (run cfg s acts).resolved = some o := by
  induction acts generalizing s with
  | nil => exact h
  | cons a rest ih => exact ih (step cfg s a).1 (resolved_step_mono cfg s a pid o h)

theorem cleanupActive_step (cfg : Config) (s : ManagerState) (a : Action)
    (h : s.cleanupActive = false) : (step cfg s a).1.cleanupActive = false := by
  cases a with
  | get url now =>
      cases hl : lookupKey url s.loadingPromises with
      | some pid => simpa [step, hl] using h
      | none =>
          cases hc : lookupKey url s.cache with
          | none => simpa [step, hl, hc] using h
          | some m =>
              by_cases ht : cfg.ttl < now - m.timestamp
              · simp only [step, hl, hc, if_pos ht]
                rw [(removeKeyState_fields url s).2.2.1]
                exact h
              · simpa [step, hl, hc, ht] using h
  | load url =>
      cases hl : lookupKey url s.loadingPromises with
      | some pid => simpa [step, hl] using h
      | none => simpa [step, hl] using h
  | fetchOk fid now =>
      cases hp : lookupKey fid s.pending with
      | none => simpa [step, hp] using h
      | some url =>
          rw [(fetchOk_state cfg s fid now url hp).2.2.2.1]
          exact h
  | fetchFail fid =>
      cases hp : lookupKey fid s.pending with
      | none => simpa [step, hp] using h
      | some url =>
          rw [fetchFail_state cfg s fid url hp]
          exact h
  | remove url =>
      simp only [step]
      rw [(removeKeyState_fields url s).2.2.1]
      exact h
  | clear => simp [step]
  | sweep now => simp [step, h]

theorem cleanupActive_run (cfg : Config) (s : ManagerState) (acts : List Action)
    (h : s.cleanupActive = false) : (run cfg s acts).cleanupActive = false := by
  induction acts generalizing s with
  | nil => exact h
  | cons a rest ih => exact ih (step cfg s a).1 (cleanupActive_step cfg s a h)

/-- C6 counterexample: fetching key A twice (`replaceTrace`) replaces the
cached entry (the new record has object URL 5), yet the revocation log never
receives the old entry's object URL 2 — `load` stores with `cache.set` and
never releases the entry it overwrites, so the claim's "older handle's
reference is released" is false. -/
theorem c6_counterexample :
    (run defaultCfg init [.load "A", .fetchOk 0 10]).cache =
      [("A", { id := 1, objectUrl := 2, loaded := true, timestamp := 10, retries := 0 })] ∧
    lookupKey "A" (run defaultCfg init replaceTrace).cache =
      some { id := 4, objectUrl := 5, loaded := true, timestamp := 20, retries := 0 } ∧
    2 ∉ (run defaultCfg init replaceTrace).revoked := by
  exact ⟨by decide, by decide, by decide⟩

/-- C6 amended: when an entry for the key already exists at the moment a newly
fetched entry is stored (store below capacity, so capacity eviction does not
interfere), the newer entry replaces the older one in place, but the older
handle's object URL is NOT revoked — the cache-owned reference simply leaks. -/
theorem c6_amended (cfg : Config) (s : ManagerState) (fid now : Nat) (url : String)
    (old : CachedMedia) (hp : lookupKey fid s.pending = some url)
    (hold : lookupKey url s.cache = some old)
    (hcap : s.cache.length < cfg.maxSize) :
    lookupKey url (step cfg s (.fetchOk fid now)).1.cache = some (freshMedia s now) ∧
    (step cfg s (.fetchOk fid now)).1.revoked = s.revoked := by
  have hc : ¬ cfg.maxSize ≤ s.cache.length := not_le.mpr hcap
  constructor
  · simp [step, hp, hc, freshMedia, lookupKey_setKey_self]
  · simp [step, hp, hc]

theorem c6_amended_witness :
    lookupKey 3 (run defaultCfg init [.load "A", .fetchOk 0 10, .load "A"]).pending
        = some "A" ∧
    lookupKey "A" (step defaultCfg (run defaultCfg init [.load "A", .fetchOk 0 10, .load "A"])
        (.fetchOk 3 20)).1.cache
      = some (freshMedia (run defaultCfg init [.load "A", .fetchOk 0 10, .load "A"]) 20) :=
  ⟨by decide,
   (c6_amended defaultCfg (run defaultCfg init [.load "A", .fetchOk 0 10, .load "A"]) 3 20 "A"
      { id := 1, objectUrl := 2, loaded := true, timestamp := 10, retries := 0 }
      (by decide) (by decide) (by decide)).1⟩

/-- C7: a terminal fetch failure leaves the key in the Empty state: the cache
still has no entry for it, the in-flight record is deleted, and a later `load`
for the key immediately starts a fresh fetch (a new promise, one more `fetch`
invocation) — in `MediaContent` that fresh lifecycle begins again at attempt 1
(`retryCount.current = 0`, see `loadMediaRun`). -/
theorem c7_failure_leaves_empty (cfg : Config) (s : ManagerState) (fid : Nat)
    (url : String) (hp : lookupKey fid s.pending = some url)
    (hnc : lookupKey url s.cache = none) :
    lookupKey url (step cfg s (.fetchFail fid)).1.cache = none ∧
    lookupKey url (step cfg s (.fetchFail fid)).1.loadingPromises = none ∧
    (step cfg (step cfg s (.fetchFail fid)).1 (.load url)).2
      = .promise (step cfg s (.fetchFail fid)).1.nextId ∧
    (step cfg (step cfg s (.fetchFail fid)).1 (.load url)).1.fetchCount
      = s.fetchCount + 1 := by
  rw [fetchFail_state cfg s fid url hp]
  refine ⟨hnc, lookupKey_delKey_self url s.loadingPromises, ?_, ?_⟩
  · simp [step, lookupKey_delKey_self]
  · simp [step, lookupKey_delKey_self]

theorem c7_failure_leaves_empty_witness :
    lookupKey 0 (run defaultCfg init [.load "A"]).pending = some "A" ∧
    lookupKey "A" (run defaultCfg init [.load "A"]).cache = none ∧
    lookupKey "A" (step defaultCfg (run defaultCfg init [.load "A"]) (.fetchFail 0)).1.loadingPromises
      = none :=
  ⟨by decide, by decide,
   (c7_failure_leaves_empty defaultCfg (run defaultCfg init [.load "A"]) 0 "A"
      (by decide) (by decide)).2.1⟩

/-- C8 counterexample: `clearRaceTrace` starts a fetch for A, calls `clear()`
while it is in flight, then lets the fetch complete.  The completed promise
body still runs `cache.set`, so afterwards key A is a cache hit — refuting
the claim that after `clear()` every prior key stays a miss "including after
any previously started fetch completes". -/
theorem c8_counterexample :
    lookupKey "A" (run defaultCfg init clearRaceTrace).cache
      = some { id := 1, objectUrl := 2, loaded := true, timestamp := 5, retries := 0 } ∧
    (step defaultCfg (run defaultCfg init clearRaceTrace) (.get "A" 5)).2
      = .got (.hit { id := 1, objectUrl := 2, loaded := true, timestamp := 5, retries := 0 }) := by
  exact ⟨by decide, by decide⟩

/-- C8 amended: immediately after `clear()` both maps are empty, every handle
cached at that moment has been revoked, and every lookup is a miss; but
`clear()` does not cancel fetches already in flight (`pending` is untouched),
and such a fetch re-inserts its entry into the cache when it completes, so
the miss guarantee does not extend past the completion of a pre-clear fetch. -/
theorem c8_amended (cfg : Config) (s : ManagerState) :
    (step cfg s .clear).1.cache = [] ∧
    (step cfg s .clear).1.loadingPromises = [] ∧
    (∀ e ∈ s.cache, e.2.objectUrl ∈ (step cfg s .clear).1.revoked) ∧
    (∀ url now, (step cfg (step cfg s .clear).1 (.get url now)).2 = .got .miss) ∧
    (step cfg s .clear).1.pending = s.pending := by
  refine ⟨rfl, rfl, ?_, ?_, rfl⟩
  · intro e he
    simp only [step]
    exact List.mem_append_right _ (List.mem_map.mpr ⟨e, he, rfl⟩)
  · intro url now
    simp [step, lookupKey]

theorem c8_amended_witness :
    ("A", { id := 1, objectUrl := 2, loaded := true, timestamp := 0, retries := 0 })
        ∈ (run defaultCfg init [.load "A", .fetchOk 0 0]).cache ∧
    2 ∈ (step defaultCfg (run defaultCfg init [.load "A", .fetchOk 0 0]) .clear).1.revoked :=
  ⟨by decide,
   (c8_amended defaultCfg (run defaultCfg init [.load "A", .fetchOk 0 0])).2.2.1
     ("A", { id := 1, objectUrl := 2, loaded := true, timestamp := 0, retries := 0 })
     (by decide)⟩

/-- C9: when a fetch for the key is in flight, `get` returns that in-flight
promise before ever consulting the cache — the state is untouched (no TTL
check, no removal) whatever the cache holds; and the outcome the caller then
awaits can be a failure (`.err`), even though `get`'s declared result is a
cached entry or `undefined`: after `load "A"` fails, promise 0 — the very
promise `get` would have handed out — settled with `.err`. -/
theorem c9_get_inflight_first (cfg : Config) (s : ManagerState) (url : String)
    (pid now : Nat) (hl : lookupKey url s.loadingPromises = some pid) :
    step cfg s (.get url now) = (s, .got (.inflight pid)) ∧
    lookupKey 0 (run defaultCfg init [.load "A", .fetchFail 0]).resolved = some .err := by
  exact ⟨by simp [step, hl], by decide⟩

theorem c9_get_inflight_first_witness :
    lookupKey "A" (run defaultCfg init [.load "A", .fetchOk 0 0, .load "A"]).loadingPromises
        = some 3 ∧
    step defaultCfg (run defaultCfg init [.load "A", .fetchOk 0 0, .load "A"]) (.get "A" 0)
      = (run defaultCfg init [.load "A", .fetchOk 0 0, .load "A"], .got (.inflight 3)) :=
  ⟨by decide,
   (c9_get_inflight_first defaultCfg (run defaultCfg init [.load "A", .fetchOk 0 0, .load "A"])
      "A" 3 0 (by decide)).1⟩

/-- C10: `clear()` cancels the cleanup interval, nothing after construction
ever restarts it (`startCleanupInterval` is called only by the constructor,
which is `init`), and a sweep tick on a manager whose interval is cancelled
is a no-op — so after `clear()` the periodic sweep never purges anything for
the rest of the instance's lifetime, whatever operations follow. -/
theorem c10_sweeper_dead_after_clear (cfg : Config) (s : ManagerState)
    (acts : List Action) (now : Nat) :
    (step cfg s .clear).1.cleanupActive = false ∧
    (s.cleanupActive = false →
      (run cfg s acts).cleanupActive = false ∧
      step cfg (run cfg s acts) (.sweep now) = (run cfg s acts, .silent)) := by
  refine ⟨by simp [step], fun h => ?_⟩
  have hrun := cleanupActive_run cfg s acts h
  exact ⟨hrun, by simp [step, hrun]⟩

theorem c10_sweeper_dead_after_clear_witness :
    (step defaultCfg init .clear).1.cleanupActive = false ∧
    step defaultCfg (run defaultCfg (step defaultCfg init .clear).1 [.load "A", .fetchOk 0 0])
        (.sweep 99999999)
      = (run defaultCfg (step defaultCfg init .clear).1 [.load "A", .fetchOk 0 0], .silent) :=
  ⟨by decide,
   ((c10_sweeper_dead_after_clear defaultCfg (step defaultCfg init .clear).1
      [.load "A", .fetchOk 0 0] 99999999).2 (by decide)).2⟩

/-- C1: while a fetch for key `k` is unresolved (its promise `pid` is in
`loadingPromises`), every `load k` and every `get k` returns that same
promise with the state unchanged — in particular no new fetch is invoked
(`fetchCount` is part of the unchanged state).  One shared outcome: promise
ids in the `resolved` log stay duplicate-free along any continuation of the
run, so `pid` settles at most once; and once it settles with outcome `o`,
every later state still reports `o` for it — hence every caller attached to
`pid` observes the identical cached media object or the identical failure. -/
theorem c1_coalescing (cfg : Config) (acts : List Action) (k : String) (pid : Nat)
    (h : lookupKey k (run cfg init acts).loadingPromises = some pid) :
    step cfg (run cfg init acts) (.load k) = (run cfg init acts, .promise pid) ∧
    (∀ now, step cfg (run cfg init acts) (.get k now)
      = (run cfg init acts, .got (.inflight pid))) ∧
    (∀ acts₁, (((run cfg (run cfg init acts) acts₁).resolved).map Prod.fst).Nodup) ∧
    (∀ acts₁ o, lookupKey pid (run cfg init acts₁).resolved = some o →
      ∀ acts₂, lookupKey pid (run cfg (run cfg init acts₁) acts₂).resolved = some o) := by
  refine ⟨by simp [step, h], fun now => by simp [step, h], ?_, ?_⟩
  · intro acts₁
    exact (inv_run cfg (run cfg init acts) acts₁ (inv_run cfg init acts inv_init)).rsd
  · intro acts₁ o ho acts₂
    exact resolved_run_mono cfg (run cfg init acts₁) acts₂ pid o ho

theorem c1_coalescing_witness :
    lookupKey "A" (run defaultCfg init [.load "A"]).loadingPromises = some 0 ∧
    step defaultCfg (run defaultCfg init [.load "A"]) (.load "A")
      = (run defaultCfg init [.load "A"], .promise 0) :=
  ⟨by decide,
   (c1_coalescing defaultCfg [.load "A"] "A" 0 (by decide)).1⟩

end MediaCacheModel
